import Mathlib

/-!
Verification of the term-rs line editor (src/command.rs, src/terminal.rs).

The editor's logical state is shallowly embedded: buffers are byte lists
(`List Nat`, each entry a u8 value), the cursor offset and the history browse
cursor are `Int` (they are `i32` in the source and the browse cursor really
does go negative), and operations that can panic (the `unwrap` calls on
`String::from_utf8`, terminal.rs lines 92, 104, 148, 160, 179) return
`Option`.  Screen-only calls (printw, mv, delch, deleteln, resize_term) go to
the external terminal surface and have no effect on the editor state; the one
write that bypasses the curses window, the `println!` in the input loop's
fall-through arm (terminal.rs line 80), is tracked explicitly where a claim
needs it.
-/

/-! ## Command history (src/command.rs) -/

/-- CommandHistory from command.rs: a list of submitted lines (each stored as
the byte sequence of the String) and the browse cursor `cur : i32`. -/
structure CommandHistory where
  history : List (List Nat)
  cur : Int
deriving DecidableEq

/-- The Default instance: empty history, cursor 0. -/
def CommandHistory.default : CommandHistory := ⟨[], 0⟩

/-- Vec::get indexed by an i32 cast to usize (command.rs lines 17 and 27):
a negative i32 sign-extends to an enormous usize, so the lookup misses for
any realistic vector; we model every negative index as a miss. -/
def getI32 {α : Type} (l : List α) (i : Int) : Option α :=
  if 0 ≤ i then l[i.toNat]? else none

/-- prev_command (command.rs lines 12-20): if cur < 0 return None, otherwise
decrement cur first and then look the decremented index up. -/
def CommandHistory.prev_command (h : CommandHistory) :
    Option (List Nat) × CommandHistory :=
  if h.cur < 0 then (none, h)
  else
    let cur := h.cur - 1
    (getI32 h.history cur, { h with cur })

/-- next_command (command.rs lines 22-30): if cur equals the entry count
return None, otherwise increment cur and look the incremented index up. -/
def CommandHistory.next_command (h : CommandHistory) :
    Option (List Nat) × CommandHistory :=
  if h.cur = (h.history.length : Int) then (none, h)
  else
    let cur := h.cur + 1
    (getI32 h.history cur, { h with cur })

/-- add_command (command.rs lines 32-35): push the line and reset the cursor
to the new entry count. -/
def CommandHistory.add_command (h : CommandHistory) (command : List Nat) :
    CommandHistory :=
  let history := h.history ++ [command]
  { history, cur := (history.length : Int) }

/-- at_top (command.rs lines 37-39). -/
def CommandHistory.at_top (h : CommandHistory) : Bool :=
  (h.history.length : Int) == h.cur

/-! ## UTF-8 (Rust String::from_utf8 / char::to_string) -/

/-- UTF-8 encoding of a Unicode scalar value, as produced by Rust's
`char::to_string` (terminal.rs line 70, `x.to_string()`). -/
def utf8Encode (c : Nat) : List Nat :=
  if c < 0x80 then [c]
  else if c < 0x800 then
    [0xC0 + c / 0x40, 0x80 + c % 0x40]
  else if c < 0x10000 then
    [0xE0 + c / 0x1000, 0x80 + c / 0x40 % 0x40, 0x80 + c % 0x40]
  else
    [0xF0 + c / 0x40000, 0x80 + c / 0x1000 % 0x40, 0x80 + c / 0x40 % 0x40,
      0x80 + c % 0x40]

/-- UTF-8 decoding of a byte sequence into Unicode scalar values, with the
standard well-formedness table (no overlong forms, no surrogates, at most
U+10FFFF).  `none` models `String::from_utf8` returning `Err`, on which the
source calls `unwrap` and panics. -/
def utf8Decode : List Nat → Option (List Nat)
  | [] => some []
  | b :: rest =>
    if b ≤ 0x7F then
      (utf8Decode rest).map fun cs => b :: cs
    else
      match rest with
      | [] => none
      | b1 :: rest1 =>
        if 0xC2 ≤ b ∧ b ≤ 0xDF then
          if 0x80 ≤ b1 ∧ b1 ≤ 0xBF then
            (utf8Decode rest1).map fun cs =>
              ((b - 0xC0) * 0x40 + (b1 - 0x80)) :: cs
          else none
        else
          match rest1 with
          | [] => none
          | b2 :: rest2 =>
            if (b = 0xE0 ∧ 0xA0 ≤ b1 ∧ b1 ≤ 0xBF) ∨
               (0xE1 ≤ b ∧ b ≤ 0xEC ∧ 0x80 ≤ b1 ∧ b1 ≤ 0xBF) ∨
               (b = 0xED ∧ 0x80 ≤ b1 ∧ b1 ≤ 0x9F) ∨
               (0xEE ≤ b ∧ b ≤ 0xEF ∧ 0x80 ≤ b1 ∧ b1 ≤ 0xBF) then
              if 0x80 ≤ b2 ∧ b2 ≤ 0xBF then
                (utf8Decode rest2).map fun cs =>
                  ((b - 0xE0) * 0x1000 + (b1 - 0x80) * 0x40 + (b2 - 0x80)) :: cs
              else none
            else
              match rest2 with
              | [] => none
              | b3 :: rest3 =>
                if (b = 0xF0 ∧ 0x90 ≤ b1 ∧ b1 ≤ 0xBF) ∨
                   (0xF1 ≤ b ∧ b ≤ 0xF3 ∧ 0x80 ≤ b1 ∧ b1 ≤ 0xBF) ∨
                   (b = 0xF4 ∧ 0x80 ≤ b1 ∧ b1 ≤ 0x8F) then
                  if (0x80 ≤ b2 ∧ b2 ≤ 0xBF) ∧ (0x80 ≤ b3 ∧ b3 ≤ 0xBF) then
                    (utf8Decode rest3).map fun cs =>
                      ((b - 0xF0) * 0x40000 + (b1 - 0x80) * 0x1000 +
                        (b2 - 0x80) * 0x40 + (b3 - 0x80)) :: cs
                  else none
                else none

/-- Rust's `char::is_whitespace` (the Unicode White_Space property), used by
`str::trim` in line_feed's emptiness check (terminal.rs line 95). -/
def isRustWhitespace (c : Nat) : Bool :=
  c == 0x09 || c == 0x0A || c == 0x0B || c == 0x0C || c == 0x0D || c == 0x20 ||
  c == 0x85 || c == 0xA0 || c == 0x1680 ||
  (0x2000 ≤ c && c ≤ 0x200A) ||
  c == 0x2028 || c == 0x2029 || c == 0x202F || c == 0x205F || c == 0x3000

/-! ## Editor state and operations (src/terminal.rs) -/

/-- Position from terminal.rs line 5: a (column, row) pair of i32. -/
structure Position where
  x : Int
  y : Int
deriving DecidableEq

/-- The editor-state fields of Terminal (terminal.rs lines 7-14).  The prompt,
the curses window and the evaluator are external or constant; the position
arithmetic over the window is modeled separately as pure functions. -/
structure Terminal where
  buf : List Nat
  pos : Int
  history : CommandHistory
deriving DecidableEq

/-- The state Terminal::run starts from (terminal.rs lines 24-31). -/
def initialTerminal : Terminal :=
  { buf := [], pos := 0, history := CommandHistory.default }

/-- clear_line (terminal.rs lines 185-198): the row deletions and the prompt
reprint touch only the screen; the editor state is cleared. -/
def Terminal.clear_line (t : Terminal) : Terminal :=
  { t with buf := [], pos := 0 }

/-- move_left (terminal.rs lines 204-214): screen motion plus the offset
decrement, guarded by pos > 0. -/
def Terminal.move_left (t : Terminal) : Terminal :=
  if 0 < t.pos then { t with pos := t.pos - 1 } else t

/-- move_right (terminal.rs lines 216-226): screen motion plus the offset
increment, guarded by pos < buf.len(). -/
def Terminal.move_right (t : Terminal) : Terminal :=
  if t.pos < (t.buf.length : Int) then { t with pos := t.pos + 1 } else t

/-- move_to_start (terminal.rs lines 228-232). -/
def Terminal.move_to_start (t : Terminal) : Terminal :=
  { t with pos := 0 }

/-- move_to_end (terminal.rs lines 234-238). -/
def Terminal.move_to_end (t : Terminal) : Terminal :=
  { t with pos := (t.buf.length : Int) }

/-- on_resized (terminal.rs lines 86-89): resize_term and setscrreg touch only
the terminal surface. -/
def Terminal.on_resized (t : Terminal) : Terminal := t

/-- insert (terminal.rs lines 125-153).  Appending at the end extends the
buffer and advances the offset by the byte length of the text.  A mid-buffer
insert splices the text in, walks the screen cursor right len times (those
offset increments are overwritten at line 149), clears the line, and reprints
the whole buffer through String::from_utf8(..).unwrap() (line 148), which
panics when the spliced buffer is not valid UTF-8. -/
def Terminal.insert (t : Terminal) (text : List Nat) : Option Terminal :=
  if t.pos = (t.buf.length : Int) then
    some { t with buf := t.buf ++ text, pos := t.pos + (text.length : Int) }
  else
    let tmp := t.buf.take t.pos.toNat ++ text ++ t.buf.drop t.pos.toNat
    let len := (text.length : Int)
    let pos := t.pos + len
    let t1 := Terminal.move_right^[text.length] t
    let t2 := t1.clear_line
    let t3 := { t2 with buf := tmp }
    match utf8Decode t3.buf with
    | none => none
    | some _ => some { t3 with pos }

/-- clear_to_start (terminal.rs lines 155-162): keep the suffix from the
offset on, clear the line, reprint that suffix through an unwrap
(line 160). -/
def Terminal.clear_to_start (t : Terminal) : Option Terminal :=
  let tmp := t.buf.drop t.pos.toNat
  let t1 := t.clear_line
  let t2 := { t1 with buf := tmp }
  match utf8Decode tmp with
  | none => none
  | some _ => some t2

/-- backspace (terminal.rs lines 164-183): a no-op at offset 0; at the end of
the buffer move left, delete the screen cell and pop the last byte; otherwise
move left, remove the byte at the new offset and redraw through an unwrap
(line 179). -/
def Terminal.backspace (t : Terminal) : Option Terminal :=
  if t.pos = 0 then some t
  else if t.pos = (t.buf.length : Int) then
    let t1 := t.move_left
    some { t1 with buf := t1.buf.dropLast }
  else
    let t1 := t.move_left
    let buf := t1.buf.eraseIdx t1.pos.toNat
    let pos := t1.pos
    let t2 := Terminal.clear_line { t1 with buf }
    let t3 := { t2 with buf }
    match utf8Decode buf with
    | none => none
    | some _ => some { t3 with pos }

/-- line_feed (terminal.rs lines 91-100): decode the buffer (the unwrap at
line 92 panics on invalid UTF-8), clear the line, echo, and add the line to
the history when its trimmed text is non-empty; returns the committed text
(as its bytes). -/
def Terminal.line_feed (t : Terminal) : Option (Terminal × List Nat) :=
  match utf8Decode t.buf with
  | none => none
  | some chars =>
    let ret := t.buf
    let t1 := t.clear_line
    let t2 :=
      if chars.any fun c => !(isRustWhitespace c) then
        { t1 with history := t1.history.add_command ret }
      else t1
    some ({ t2 with pos := 0 }, ret)

/-- prev_command (terminal.rs lines 102-114): when the history is at-top,
snapshot the buffer (the unwrap at line 104), add it, and call the history
prev once discarding its result; then always clear the line, call the history
prev again, load any returned entry, and park the offset at the end. -/
def Terminal.prev_command (t : Terminal) : Option Terminal :=
  let snap : Option Terminal :=
    if t.history.at_top then
      match utf8Decode t.buf with
      | none => none
      | some _ =>
        let h1 := t.history.add_command t.buf
        let (_, h2) := h1.prev_command
        some { t with history := h2 }
    else some t
  match snap with
  | none => none
  | some t1 =>
    let t2 := t1.clear_line
    let (cmd, h3) := t2.history.prev_command
    let t3 := { t2 with history := h3 }
    let t4 :=
      match cmd with
      | some command => { t3 with buf := t3.buf ++ command }
      | none => t3
    some { t4 with pos := (t4.buf.length : Int) }

/-- next_command (terminal.rs lines 116-123): clear the line, call the history
next, load any returned entry, park the offset at the end. -/
def Terminal.next_command (t : Terminal) : Terminal :=
  let t1 := t.clear_line
  let (cmd, h1) := t1.history.next_command
  let t2 := { t1 with history := h1 }
  let t3 :=
    match cmd with
    | some command => { t2 with buf := t2.buf ++ command }
    | none => t2
  { t3 with pos := (t3.buf.length : Int) }

/-! ## The public operations as a step relation -/

/-- The public editor operations reachable from the input loop. -/
inductive Op where
  | insert (text : List Nat)
  | backspace
  | clear_to_start
  | clear_line
  | move_left
  | move_right
  | move_to_start
  | move_to_end
  | history_prev
  | history_next
  | commit
  | on_resize
deriving DecidableEq

/-- One public operation; `none` models a panic inside the operation. -/
def Terminal.step (t : Terminal) : Op → Option Terminal
  | .insert text => t.insert text
  | .backspace => t.backspace
  | .clear_to_start => t.clear_to_start
  | .clear_line => some t.clear_line
  | .move_left => some t.move_left
  | .move_right => some t.move_right
  | .move_to_start => some t.move_to_start
  | .move_to_end => some t.move_to_end
  | .history_prev => t.prev_command
  | .history_next => some t.next_command
  | .commit => (t.line_feed).map Prod.fst
  | .on_resize => some t.on_resized

/-- Running a sequence of public operations, stopping at a panic. -/
def runOps (t : Terminal) : List Op → Option Terminal
  | [] => some t
  | op :: ops =>
    match t.step op with
    | none => none
    | some t1 => runOps t1 ops

/-- The cursor-offset invariant of the spec: 0 ≤ cursor_offset ≤ len(buffer). -/
def posInv (t : Terminal) : Prop :=
  0 ≤ t.pos ∧ t.pos ≤ (t.buf.length : Int)

instance (t : Terminal) : Decidable (posInv t) := by
  unfold posInv; infer_instance

/-! ## The input loop (terminal.rs input, lines 43-84) -/

/-- A decoded key event as delivered by the terminal surface.  `character`
carries the Unicode scalar value of an Input::Character; the named key
constructors are the Input variants the loop matches; `keyOther` stands for
any other Input variant (KeyHome, KeyF(n), ...), which only the fall-through
arm at line 80 handles. -/
inductive Event where
  | character (c : Nat)
  | keyBackspace
  | keyResize
  | keyUp
  | keyDown
  | keyLeft
  | keyRight
  | keyOther (code : Nat)
deriving DecidableEq

/-- One iteration of the input loop's match (terminal.rs lines 48-81).  The
first component is the next editor state (`none` for a panic); the second
records the events echoed to stdout by the fall-through println! arm
(line 80) - every other arm writes, if at all, through the curses window.
Note the printable-character guard at line 70 compares `x as u8`, the scalar
value truncated to its low byte. -/
def Terminal.handleEvent (t : Terminal) : Event → Option Terminal × List Event
  | .character c =>
    if c = 0x0A then ((t.line_feed).map Prod.fst, [])
    else if c = 0x09 then (some t, [])
    else if c = 0x7F then (t.backspace, [])
    else if c = 0x15 then (t.clear_to_start, [])
    else if c = 0x0C then (some t.clear_line, [])
    else if c = 0x01 then (some t.move_to_start, [])
    else if c = 0x05 then (some t.move_to_end, [])
    else if 0x20 ≤ c % 0x100 ∧ c % 0x100 ≤ 0x7E then
      (t.insert (utf8Encode c), [])
    else (some t, [])
  | .keyBackspace => (t.backspace, [])
  | .keyResize => (some t.on_resized, [])
  | .keyUp => (t.prev_command, [])
  | .keyDown => (some t.next_command, [])
  | .keyLeft => (some t.move_left, [])
  | .keyRight => (some t.move_right, [])
  | .keyOther code => (some t, [.keyOther code])

/-- A character event that reaches neither a named arm nor the printable
guard at line 70: it falls through to the silent `_ => ()` arm at line 71. -/
def unrecognizedChar (c : Nat) : Bool :=
  !(c == 0x0A || c == 0x09 || c == 0x7F || c == 0x15 || c == 0x0C ||
    c == 0x01 || c == 0x05 ||
    (0x20 ≤ c % 0x100 && c % 0x100 ≤ 0x7E))

/-- Running a sequence of input events, stopping at a panic. -/
def runEvents (t : Terminal) : List Event → Option Terminal
  | [] => some t
  | e :: es =>
    match (t.handleEvent e).1 with
    | none => none
    | some t1 => runEvents t1 es

/-! ## Position arithmetic (terminal.rs lines 240-259) -/

/-- Rust i32 division truncates toward zero. -/
def rustDiv (a b : Int) : Int := Int.tdiv a b

/-- Rust i32 remainder takes the sign of the dividend. -/
def rustMod (a b : Int) : Int := Int.tmod a b

/-- line_start_position (terminal.rs lines 240-245), as a pure function of
the window width W (get_max_x), the prompt width L, the cursor offset pos and
the current cursor row.  The column is the prompt width; the row steps back
by line_count - 1 from the current row. -/
def line_start_position (W L pos cur_y : Int) : Position :=
  let line_count := rustDiv (pos + 1 - (W - L) + W - 1) W + 1
  ⟨L, cur_y - line_count + 1⟩

/-- line_end_position (terminal.rs lines 247-259): the position of the end of
the buffer (length buflen), anchored at line_start_position. -/
def line_end_position (W L pos cur_y buflen : Int) : Position :=
  let p := line_start_position W L pos cur_y
  if buflen ≤ W - L then ⟨p.x + buflen, p.y⟩
  else
    let line_count := rustDiv (buflen - (W - L) + W - 1) W + 1
    let end_x := rustMod (buflen - (W - L)) W
    let end_y := p.y + line_count - 1
    ⟨end_x, end_y⟩

/-- Ceiling division for a positive divisor, written as the negated floor
division of the negation: for 0 < b, ceilDiv a b is the least integer k with
a ≤ k * b. -/
def ceilDiv (a b : Int) : Int := -((-a) / b)

/-- Modelled from the spec, section 4.2 (the forward mapping, which the source
only materializes at p = len(buffer) as line_end_position): offset p at
prompt width L, terminal width W and origin row R sits at (L + p, R) when
p ≤ W - L, and otherwise at column (p - (W - L)) mod W on row
R + rows - 1 where rows = ceil((p - (W - L)) / W) + 1. -/
def position_of (W L R p : Int) : Position :=
  if p ≤ W - L then ⟨L + p, R⟩
  else
    let rows := ceilDiv (p - (W - L)) W + 1
    ⟨Int.emod (p - (W - L)) W, R + rows - 1⟩

/-! ## Helper lemmas -/

/-- Appending one entry always resets the browse cursor to the new length. -/
lemma add_command_at_top (h : CommandHistory) (c : List Nat) :
    (h.add_command c).at_top = true := by
  simp [CommandHistory.add_command, CommandHistory.at_top]

/-- A buffer of ASCII bytes decodes to itself. -/
lemma utf8Decode_ascii (l : List Nat) (h : ∀ b ∈ l, b ≤ 0x7F) :
    utf8Decode l = some l := by
  induction l with
  | nil => rfl
  | cons b rest ih =>
    have hb : b ≤ 0x7F := h b (List.mem_cons_self b rest)
    have hrest := ih fun x hx => h x (List.mem_cons_of_mem _ hx)
    rw [utf8Decode.eq_def]
    simp only [if_pos hb, hrest]
    rfl

/-! ## C4: History.prev underflow (code_bug evaluation) -/

/-- C4: the claim says a prev call with browse cursor at 0 or below returns
None and leaves the cursor unchanged.  The code decrements before
bounds-checking (command.rs line 16), so from cursor 0 over a one-entry
history it returns None but leaves the cursor at -1. -/
theorem prev_command_underflows_at_zero :
    CommandHistory.prev_command ⟨[[0x61]], 0⟩ = (none, ⟨[[0x61]], -1⟩) := by
  decide

/-! ## C10: next_command recovers from underflow -/

/-- C10: once the browse cursor has underflowed to -1, next_command moves it
to 0 without touching the entries, and returns the entry at index 0 - in
particular Some of the oldest entry whenever the history is non-empty. -/
theorem next_command_recovers_from_underflow (h : CommandHistory)
    (hcur : h.cur = -1) :
    (h.next_command).2.cur = 0 ∧
    (h.next_command).2.history = h.history ∧
    (h.next_command).1 = h.history[0]? ∧
    (∀ e rest, h.history = e :: rest → (h.next_command).1 = some e) := by
  have hne : h.cur ≠ (h.history.length : Int) := by
    rw [hcur]; omega
  unfold CommandHistory.next_command
  rw [if_neg hne]
  refine ⟨by simp [hcur], rfl, by simp [getI32, hcur], ?_⟩
  intro e rest hh
  simp [getI32, hcur, hh]

/-- Witness for C10 at a concrete underflowed history. -/
theorem next_command_recovers_from_underflow_witness :
    ((⟨[[0x61]], -1⟩ : CommandHistory).next_command).2.cur = 0 ∧
    ((⟨[[0x61]], -1⟩ : CommandHistory).next_command).2.history = [[0x61]] ∧
    ((⟨[[0x61]], -1⟩ : CommandHistory).next_command).1 = [[0x61]][0]? ∧
    (∀ e rest, [[0x61]] = e :: rest →
      ((⟨[[0x61]], -1⟩ : CommandHistory).next_command).1 = some e) :=
  next_command_recovers_from_underflow ⟨[[0x61]], -1⟩ rfl

/-! ## C6: the first Up press -/

/-- The bytes of the string ls -la. -/
def lslaBytes : List Nat := [0x6C, 0x73, 0x20, 0x2D, 0x6C, 0x61]

/-- The bytes of the string pwd. -/
def pwdBytes : List Nat := [0x70, 0x77, 0x64]

/-- The scenario start state of C6: history contains ls -la, at-top, the
buffer holds pwd with the caret at its end. -/
def upScenarioStart : Terminal := ⟨pwdBytes, 3, ⟨[lslaBytes], 1⟩⟩

/-- C6 fails as stated: after one Up press the displayed buffer is not pwd.
The at-top branch of terminal.rs prev_command snapshots the buffer and calls
the history prev once with the result discarded (line 106), and the common
path then calls prev a second time (line 109), so the snapshot is skipped. -/
theorem first_up_does_not_keep_buffer :
    ¬ (Terminal.prev_command upScenarioStart).map Terminal.buf
        = some pwdBytes := by
  decide

/-- C6 amended: one Up press snapshots the in-progress buffer (entries become
[ls -la, pwd], at_top is false) but displays ls -la, the snapshot having been
skipped; a second Up press underflows the browse cursor to -1 and leaves the
buffer empty. -/
theorem first_up_shows_older_entry :
    Terminal.prev_command upScenarioStart
      = some ⟨lslaBytes, 6, ⟨[lslaBytes, pwdBytes], 0⟩⟩ ∧
    (Terminal.prev_command upScenarioStart).bind Terminal.prev_command
      = some ⟨[], 0, ⟨[lslaBytes, pwdBytes], -1⟩⟩ := by
  decide

/-! ## C9: the printable-character guard -/

/-- C9: the claim says every character the input loop passes to insert is a
single printable ASCII byte, so the commit-time decode can never fail.  The
guard at terminal.rs line 70 tests the scalar value truncated to u8, so
U+0120 (low byte 0x20) reaches insert as the two-byte sequence C4 A0; one
backspace then strips the trailing byte and the Enter decode (line 92)
fails, i.e. the unwrap panics. -/
theorem truncated_guard_breaks_commit_decode :
    utf8Encode 0x120 = [0xC4, 0xA0] ∧
    (initialTerminal.handleEvent (.character 0x120)).1
      = initialTerminal.insert [0xC4, 0xA0] ∧
    (runEvents initialTerminal [.character 0x120, .character 0x7F]).map
        Terminal.buf = some [0xC4] ∧
    runEvents initialTerminal
      [.character 0x120, .character 0x7F, .character 0x0A] = none := by
  decide

/-! ## C5: at_top after commit or add_command -/

/-- C5 fails as stated: from the initial state, typing a space, pressing Up
(which snapshots the blank draft and then underflows the browse cursor) and
committing the now-empty buffer performs no add_command, so the history is
left off-top after the commit. -/
theorem commit_can_leave_history_off_top :
    (runOps initialTerminal [.insert [0x20], .history_prev, .commit]).map
        (fun t => t.history.at_top) = some false := by
  decide

/-- C5 amended: immediately after any add_command the history is at-top, and
immediately after a commit whose buffer decodes to text with a non-whitespace
character (so that line_feed reaches add_command) the history is at-top; a
commit of a blank line skips add_command and leaves the browse cursor as it
was. -/
theorem at_top_after_add_or_nonblank_commit :
    (∀ (h : CommandHistory) (c : List Nat), (h.add_command c).at_top = true) ∧
    (∀ (t : Terminal) (chars : List Nat) (t1 : Terminal) (ret : List Nat),
      utf8Decode t.buf = some chars →
      (chars.any fun c => !(isRustWhitespace c)) = true →
      t.line_feed = some (t1, ret) → t1.history.at_top = true) := by
  refine ⟨add_command_at_top, ?_⟩
  intro t chars t1 ret hdec hany hlf
  unfold Terminal.line_feed at hlf
  rw [hdec] at hlf
  simp only [hany, if_pos] at hlf
  cases hlf
  exact add_command_at_top _ _

/-- Witness for the amended C5 at a concrete one-byte commit. -/
theorem at_top_after_add_or_nonblank_commit_witness :
    ((⟨[], 0, ⟨[[0x61]], 1⟩⟩ : Terminal)).history.at_top = true :=
  at_top_after_add_or_nonblank_commit.2 ⟨[0x61], 1, ⟨[], 0⟩⟩ [0x61]
    ⟨[], 0, ⟨[[0x61]], 1⟩⟩ [0x61] (by decide) (by decide) (by decide)

/-! ## C8: unrecognized key events -/

/-- C8 fails as stated: an Input variant outside the recognized set (modeled
by keyOther, for example KeyHome) reaches the fall-through arm at terminal.rs
line 80, which prints its debug representation with println! - a write to
stdout, hence to the terminal. -/
theorem unrecognized_key_prints_debug :
    (initialTerminal.handleEvent (Event.keyOther 0)).2 ≠ [] := by
  decide

/-- C8 amended: no unrecognized event changes any editor state; an
unrecognized character event is silently dropped (no output), but an
unrecognized non-character key event is echoed to stdout by the debug
println! arm. -/
theorem unrecognized_events_leave_state (t : Terminal) (c code : Nat)
    (hc : unrecognizedChar c = true) :
    t.handleEvent (.character c) = (some t, []) ∧
    t.handleEvent (.keyOther code) = (some t, [.keyOther code]) := by
  refine ⟨?_, rfl⟩
  simp only [unrecognizedChar, Bool.not_eq_true', Bool.or_eq_false_iff,
    beq_eq_false_iff_ne, ne_eq, Bool.and_eq_false_iff,
    decide_eq_false_iff_not, not_le] at hc
  obtain ⟨⟨⟨⟨⟨⟨⟨h10, h9⟩, h7f⟩, h15⟩, h0c⟩, h01⟩, h05⟩, hguard⟩ := hc
  show (if c = 0x0A then ((t.line_feed).map Prod.fst, ([] : List Event))
    else if c = 0x09 then (some t, [])
    else if c = 0x7F then (t.backspace, [])
    else if c = 0x15 then (t.clear_to_start, [])
    else if c = 0x0C then (some t.clear_line, [])
    else if c = 0x01 then (some t.move_to_start, [])
    else if c = 0x05 then (some t.move_to_end, [])
    else if 0x20 ≤ c % 0x100 ∧ c % 0x100 ≤ 0x7E then
      (t.insert (utf8Encode c), [])
    else (some t, [])) = (some t, [])
  rw [if_neg h10, if_neg h9, if_neg h7f, if_neg h15, if_neg h0c, if_neg h01,
    if_neg h05, if_neg]
  rcases hguard with h | h
  · omega
  · omega

/-- Witness for the amended C8: ctrl+B (scalar 2) is unrecognized. -/
theorem unrecognized_events_leave_state_witness :
    initialTerminal.handleEvent (.character 2) = (some initialTerminal, []) ∧
    initialTerminal.handleEvent (.keyOther 0)
      = (some initialTerminal, [.keyOther 0]) :=
  unrecognized_events_leave_state initialTerminal 2 0 (by decide)


/-! ## C1: the cursor-offset invariant -/

lemma posInv_mk (b : List Nat) (p : Int) (h : CommandHistory) :
    posInv ⟨b, p, h⟩ ↔ 0 ≤ p ∧ p ≤ (b.length : Int) := Iff.rfl

lemma posInv_of_pos_eq_len {t : Terminal}
    (h : t.pos = (t.buf.length : Int)) : posInv t := by
  unfold posInv; omega

lemma posInv_of_pos_zero {t : Terminal} (h : t.pos = 0) : posInv t := by
  unfold posInv; omega

lemma insert_posInv {t t1 : Terminal} {text : List Nat}
    (h : posInv t) (hs : t.insert text = some t1) : posInv t1 := by
  obtain ⟨h0, h1⟩ := h
  unfold Terminal.insert at hs
  by_cases hp : t.pos = (t.buf.length : Int)
  · rw [if_pos hp] at hs
    cases hs
    rw [posInv_mk]
    simp only [List.length_append]
    push_cast
    omega
  · rw [if_neg hp] at hs
    rcases hd : utf8Decode
        (List.take t.pos.toNat t.buf ++ text ++ List.drop t.pos.toNat t.buf)
      with _ | cs <;> simp only [hd] at hs
    · cases hs
    · cases hs
      have hle : t.pos.toNat ≤ t.buf.length := by omega
      rw [posInv_mk]
      simp only [List.length_append, List.length_take, List.length_drop,
        Nat.min_eq_left hle]
      push_cast
      omega

lemma backspace_posInv {t t1 : Terminal} (h : posInv t)
    (hs : t.backspace = some t1) : posInv t1 := by
  obtain ⟨h0, h1⟩ := h
  unfold Terminal.backspace at hs
  by_cases hp0 : t.pos = 0
  · rw [if_pos hp0] at hs; cases hs; exact ⟨h0, h1⟩
  · rw [if_neg hp0] at hs
    have hpos : 0 < t.pos := by omega
    have hml : t.move_left = { t with pos := t.pos - 1 } := by
      unfold Terminal.move_left; rw [if_pos hpos]
    by_cases hpl : t.pos = (t.buf.length : Int)
    · rw [if_pos hpl, hml] at hs
      cases hs
      rw [posInv_mk]
      simp only [List.length_dropLast]
      omega
    · rw [if_neg hpl, hml] at hs
      rcases hd : utf8Decode (t.buf.eraseIdx (t.pos - 1).toNat)
        with _ | cs <;> simp only [hd] at hs
      · cases hs
      · cases hs
        have hidx : (t.pos - 1).toNat < t.buf.length := by omega
        rw [posInv_mk]
        simp only [List.length_eraseIdx, hidx, if_pos]
        omega

lemma clear_to_start_posInv {t t1 : Terminal}
    (hs : t.clear_to_start = some t1) : posInv t1 := by
  unfold Terminal.clear_to_start at hs
  rcases hd : utf8Decode (List.drop t.pos.toNat t.buf) with _ | cs <;>
    simp only [hd] at hs
  · cases hs
  · cases hs; exact posInv_of_pos_zero rfl

lemma prev_command_posInv {t t1 : Terminal}
    (hs : t.prev_command = some t1) : posInv t1 := by
  unfold Terminal.prev_command at hs
  by_cases hat : t.history.at_top
  · rcases hd : utf8Decode t.buf with _ | cs <;>
      simp only [if_pos hat, hd] at hs
    · cases hs
    · cases hs
      exact posInv_of_pos_eq_len rfl
  · simp only [if_neg hat] at hs
    cases hs
    exact posInv_of_pos_eq_len rfl

lemma next_command_posInv (t : Terminal) : posInv t.next_command := by
  unfold Terminal.next_command
  rcases hp : t.clear_line.history.next_command with ⟨cmd, h1⟩
  simp only [hp]
  rcases cmd with _ | command <;> exact posInv_of_pos_eq_len rfl

lemma line_feed_posInv {t t1 : Terminal} {ret : List Nat}
    (hs : t.line_feed = some (t1, ret)) : posInv t1 := by
  unfold Terminal.line_feed at hs
  rcases hd : utf8Decode t.buf with _ | chars <;> simp only [hd] at hs
  · cases hs
  · cases hs; exact posInv_of_pos_zero rfl

/-- One public operation preserves the cursor-offset invariant. -/
lemma step_preserves_posInv {t t1 : Terminal} {op : Op}
    (h : posInv t) (hs : t.step op = some t1) : posInv t1 := by
  obtain ⟨h0, h1⟩ := h
  cases op with
  | insert text => exact insert_posInv ⟨h0, h1⟩ hs
  | backspace => exact backspace_posInv ⟨h0, h1⟩ hs
  | clear_to_start => exact clear_to_start_posInv hs
  | clear_line => cases hs; exact posInv_of_pos_zero rfl
  | move_left =>
    cases hs
    unfold Terminal.move_left
    split
    next hlt => rw [posInv_mk]; omega
    next hge => exact ⟨h0, h1⟩
  | move_right =>
    cases hs
    unfold Terminal.move_right
    split
    next hlt => rw [posInv_mk]; omega
    next hge => exact ⟨h0, h1⟩
  | move_to_start => cases hs; exact posInv_of_pos_zero rfl
  | move_to_end => cases hs; exact posInv_of_pos_eq_len rfl
  | history_prev => exact prev_command_posInv hs
  | history_next => cases hs; exact next_command_posInv t
  | commit =>
    rcases hlf : t.line_feed with _ | ⟨t2, ret⟩ <;>
      simp only [Terminal.step, hlf, Option.map] at hs
    · cases hs
    · cases hs; exact line_feed_posInv hlf
  | on_resize => cases hs; exact ⟨h0, h1⟩

lemma runOps_preserves_posInv :
    ∀ (ops : List Op) (t t1 : Terminal),
      posInv t → runOps t ops = some t1 → posInv t1 := by
  intro ops
  induction ops with
  | nil => intro t t1 h hr; cases hr; exact h
  | cons op rest ih =>
    intro t t1 h hr
    unfold runOps at hr
    rcases hstep : t.step op with _ | t2 <;> simp only [hstep] at hr
    · cases hr
    · exact ih t2 t1 (step_preserves_posInv h hstep) hr

/-- C1: along every panic-free run of public operations from the initial
state, the cursor offset satisfies 0 ≤ cursor_offset ≤ len(buffer) once each
operation has completed (every prefix of a run is itself a run, so this
covers every intermediate state of the sequence). -/
theorem cursor_offset_invariant (ops : List Op) (t1 : Terminal)
    (h : runOps initialTerminal ops = some t1) : posInv t1 :=
  runOps_preserves_posInv ops initialTerminal t1 ⟨le_rfl, le_rfl⟩ h

/-- Witness for C1 on a concrete operation sequence. -/
theorem cursor_offset_invariant_witness :
    posInv { buf := [0x61], pos := 0, history := ⟨[], 0⟩ } :=
  cursor_offset_invariant [.insert [0x61], .move_left]
    { buf := [0x61], pos := 0, history := ⟨[], 0⟩ } (by decide)

/-! ## C7: insert followed by backspace -/

lemma mem_of_mem_spliced {buf drop1 take1 : List Nat} {c b : Nat}
    (hascii : ∀ x ∈ buf, x ≤ 0x7F) (hc : c ≤ 0x7E)
    (htake : ∀ x ∈ take1, x ∈ buf) (hdrop : ∀ x ∈ drop1, x ∈ buf)
    (hb : b ∈ take1 ++ [c] ++ drop1) : b ≤ 0x7F := by
  rcases List.mem_append.1 hb with hb | hb
  · rcases List.mem_append.1 hb with hb | hb
    · exact hascii b (htake b hb)
    · have : b = c := by simpa using hb
      omega
  · exact hascii b (hdrop b hb)

/-- C7: inserting one printable ASCII byte at any valid offset and then
backspacing restores the whole editor state (buffer, cursor offset and
history), provided the buffer holds only ASCII bytes (the regime of the
spec insertion contract, under which the redraw decodes succeed). -/
theorem insert_backspace_inverse (t : Terminal) (c : Nat)
    (hinv : posInv t) (hascii : ∀ b ∈ t.buf, b ≤ 0x7F)
    (hc1 : 0x20 ≤ c) (hc2 : c ≤ 0x7E) :
    (t.insert [c]).bind Terminal.backspace = some t := by
  obtain ⟨h0, h1⟩ := hinv
  obtain ⟨buf, pos, hist⟩ := t
  simp only at h0 h1 hascii
  by_cases hp : pos = (buf.length : Int)
  · -- appending at the end, then deleting the last byte
    have hins : Terminal.insert ⟨buf, pos, hist⟩ [c]
        = some ⟨buf ++ [c], pos + 1, hist⟩ := by
      simp only [Terminal.insert]
      rw [if_pos hp]
      norm_num
    rw [hins]
    show Terminal.backspace ⟨buf ++ [c], pos + 1, hist⟩ = some ⟨buf, pos, hist⟩
    have hlen : (pos + 1 : Int) = ((buf ++ [c]).length : Int) := by
      simp only [List.length_append, List.length_singleton]
      omega
    simp only [Terminal.backspace]
    rw [if_neg (by omega : ¬ (pos + 1 : Int) = 0), if_pos hlen]
    simp only [Terminal.move_left]
    rw [if_pos (by omega : (0 : Int) < pos + 1)]
    simp only [List.dropLast_concat, Option.some.injEq, Terminal.mk.injEq,
      and_true, true_and]
    omega
  · -- splicing mid-buffer, then erasing the spliced byte
    have hlt : pos < (buf.length : Int) := lt_of_le_of_ne h1 hp
    have htn : pos.toNat ≤ buf.length := by omega
    have hdec1 : utf8Decode
        (List.take pos.toNat buf ++ [c] ++ List.drop pos.toNat buf)
        = some (List.take pos.toNat buf ++ [c] ++ List.drop pos.toNat buf) :=
      utf8Decode_ascii _ (fun b hb => mem_of_mem_spliced hascii hc2
        (fun x hx => List.mem_of_mem_take hx)
        (fun x hx => List.mem_of_mem_drop hx) hb)
    have hins : Terminal.insert ⟨buf, pos, hist⟩ [c]
        = some ⟨List.take pos.toNat buf ++ [c] ++ List.drop pos.toNat buf,
            pos + 1, hist⟩ := by
      simp only [Terminal.insert]
      rw [if_neg hp]
      simp only [List.length_singleton, Nat.cast_one, Function.iterate_one,
        Terminal.move_right, Terminal.clear_line]
      rw [if_pos hlt]
      simp only [hdec1]
    rw [hins]
    show Terminal.backspace _ = _
    have hlen2 : ¬ (pos + 1 : Int) =
        (((List.take pos.toNat buf ++ [c] ++ List.drop pos.toNat buf)).length
          : Int) := by
      simp only [List.length_append, List.length_take, List.length_drop,
        List.length_singleton, Nat.min_eq_left htn]
      push_cast
      omega
    simp only [Terminal.backspace]
    rw [if_neg (by omega : ¬ (pos + 1 : Int) = 0), if_neg hlen2]
    simp only [Terminal.move_left]
    rw [if_pos (by omega : (0 : Int) < pos + 1)]
    have hcancel : (pos + 1 - 1 : Int) = pos := by omega
    have htake_len : (List.take pos.toNat buf).length = pos.toNat :=
      (List.length_take _ _).trans (Nat.min_eq_left htn)
    have herase :
        (List.take pos.toNat buf ++ [c] ++ List.drop pos.toNat buf).eraseIdx
          (pos.toNat) = buf := by
      rw [List.eraseIdx_append_of_lt_length
        (by simp [htake_len] : pos.toNat <
          (List.take pos.toNat buf ++ [c]).length)]
      rw [List.eraseIdx_append_of_length_le (le_of_eq htake_len)]
      simp only [htake_len, Nat.sub_self, List.eraseIdx_cons_zero,
        List.append_nil]
      exact List.take_append_drop _ _
    simp only [hcancel, herase, utf8Decode_ascii buf hascii,
      Terminal.clear_line, Option.some.injEq, Terminal.mk.injEq,
      and_true, true_and]

/-- Witness for C7: inserting x into the buffer ab at offset 1 and
backspacing restores the state. -/
theorem insert_backspace_inverse_witness :
    ((Terminal.insert ⟨[0x61, 0x62], 1, ⟨[], 0⟩⟩ [0x78]).bind
        Terminal.backspace) = some ⟨[0x61, 0x62], 1, ⟨[], 0⟩⟩ :=
  insert_backspace_inverse ⟨[0x61, 0x62], 1, ⟨[], 0⟩⟩ 0x78
    (by constructor <;> norm_num) (by decide) (by decide) (by decide)

/-! ## Integer-division helpers for the position arithmetic -/

/-- Uniqueness of Euclidean division for a positive divisor. -/
lemma ediv_emod_of_decomp {a W d r : Int} (hW : 0 < W) (hr : 0 ≤ r)
    (hrW : r < W) (h : a = W * d + r) : a / W = d ∧ a % W = r :=
  (Int.ediv_emod_unique hW).2 ⟨by linarith, hr, hrW⟩

lemma ceilDiv_of_emod_zero {a W : Int} (hW : 0 < W) (h : a % W = 0) :
    ceilDiv a W = a / W := by
  have hd := Int.ediv_add_emod a W
  rw [h, add_zero] at hd
  have h2 : -a = W * (-(a / W)) + 0 := by linear_combination hd
  unfold ceilDiv
  rw [(ediv_emod_of_decomp hW le_rfl hW h2).1]
  ring

lemma ceilDiv_of_emod_ne {a W : Int} (hW : 0 < W) (h : a % W ≠ 0) :
    ceilDiv a W = a / W + 1 := by
  have hd := Int.ediv_add_emod a W
  have hr0 : 0 ≤ a % W := Int.emod_nonneg a hW.ne'
  have hrW : a % W < W := Int.emod_lt_of_pos a hW
  have h2 : -a = W * (-(a / W) - 1) + (W - a % W) := by linear_combination hd
  unfold ceilDiv
  rw [(ediv_emod_of_decomp hW (by omega) (by omega) h2).1]
  ring

/-- The familiar rounding identity: adding W - 1 before a floor division by W
computes the ceiling. -/
lemma add_div_ceil (q W : Int) (hW : 0 < W) :
    (q + W - 1) / W = ceilDiv q W := by
  rcases eq_or_ne (q % W) 0 with h | h
  · have hd := Int.ediv_add_emod q W
    rw [h, add_zero] at hd
    have h2 : q + W - 1 = W * (q / W) + (W - 1) := by linear_combination -hd
    rw [(ediv_emod_of_decomp hW (by omega) (by omega) h2).1,
      ceilDiv_of_emod_zero hW h]
  · have hd := Int.ediv_add_emod q W
    have hr0 : 0 ≤ q % W := Int.emod_nonneg q hW.ne'
    have hrW : q % W < W := Int.emod_lt_of_pos q hW
    have h2 : q + W - 1 = W * (q / W + 1) + (q % W - 1) := by
      linear_combination -hd
    rw [(ediv_emod_of_decomp hW (by omega) (by omega) h2).1,
      ceilDiv_of_emod_ne hW h]

/-! ## C2: the end-of-buffer position -/

/-- C2: line_end_position computes exactly the spec forward mapping of
offset len(buffer) from the origin row determined by line_start_position:
no wrap when N ≤ W - L, and otherwise column (N - (W - L)) mod W on row
origin_row + ceil((N - (W - L)) / W) + 1 - 1. -/
theorem line_end_matches_forward_mapping (W L pos cur_y N : Int)
    (hW : 0 < W) (hL : 0 ≤ L) (hLW : L < W) (hN : 0 ≤ N) :
    line_end_position W L pos cur_y N
      = position_of W L (line_start_position W L pos cur_y).y N := by
  unfold line_end_position position_of
  by_cases h : N ≤ W - L
  · rw [if_pos h, if_pos h]
    unfold line_start_position
    rfl
  · rw [if_neg h, if_neg h]
    have hq : 0 < N - (W - L) := by omega
    simp only [Position.mk.injEq]
    constructor
    · unfold rustMod
      exact Int.tmod_eq_emod (by omega) (by omega)
    · have hdiv : rustDiv (N - (W - L) + W - 1) W
          = ceilDiv (N - (W - L)) W := by
        unfold rustDiv
        rw [Int.tdiv_eq_ediv (by omega) (by omega)]
        exact add_div_ceil _ _ hW
      rw [hdiv]

/-- Witness for C2: the two position laws of the spec.  With W=80, L=7, N=9
the end sits at (16, origin_row); with W=10, L=3, N=9 it wraps to column 2 on
origin_row + 1. -/
theorem line_end_matches_forward_mapping_witness :
    line_end_position 10 3 0 0 9
      = position_of 10 3 (line_start_position 10 3 0 0).y 9 ∧
    position_of 10 3 (line_start_position 10 3 0 0).y 9 = ⟨2, 1⟩ ∧
    line_end_position 80 7 0 0 9 = ⟨16, 0⟩ :=
  ⟨line_end_matches_forward_mapping 10 3 0 0 9 (by decide) (by decide)
      (by decide) (by decide),
    by decide, by decide⟩

/-! ## C3: inverting the forward mapping -/

/-- C3 as stated fails: with W=10, L=3, origin row 5 and offset p=7 (exactly
the first-row capacity W - L), the forward mapping reports row 5, and
line_start_position recovers (3, 4) - one row above the true origin
(3, 5). -/
theorem line_start_inversion_counterexample :
    line_start_position 10 3 7 ((position_of 10 3 5 7).y) ≠ ⟨3, 5⟩ := by
  decide

/-- C3 amended: reading the current row off the forward mapping of offset p,
line_start_position recovers the origin (L, R) exactly when p + L is not a
positive multiple of W; when W divides p + L and p + L > 0 it recovers
(L, R - 1), one row too high. -/
theorem line_start_inverts_forward_mapping (W L R p : Int)
    (hW : 0 < W) (hL : 0 ≤ L) (hLW : L < W) (hp : 0 ≤ p) :
    ((p + L) % W ≠ 0 ∨ p + L = 0 →
      line_start_position W L p ((position_of W L R p).y) = ⟨L, R⟩) ∧
    ((p + L) % W = 0 ∧ 0 < p + L →
      line_start_position W L p ((position_of W L R p).y) = ⟨L, R - 1⟩) := by
  have hstart : ∀ cy : Int,
      line_start_position W L p cy = ⟨L, cy - (p + L) / W⟩ := by
    intro cy
    unfold line_start_position rustDiv
    have hnum : p + 1 - (W - L) + W - 1 = p + L := by ring
    rw [hnum, Int.tdiv_eq_ediv (by omega) (by omega)]
    show Position.mk L (cy - ((p + L) / W + 1) + 1)
      = Position.mk L (cy - (p + L) / W)
    congr 1
    ring
  by_cases hple : p ≤ W - L
  · have hy : (position_of W L R p).y = R := by
      unfold position_of
      rw [if_pos hple]
    rw [hy, hstart R]
    rcases lt_or_eq_of_le (show p + L ≤ W by omega) with hlt | heq
    · have hdiv0 : (p + L) / W = 0 := Int.ediv_eq_zero_of_lt (by omega) hlt
      have hmod : (p + L) % W = p + L := Int.emod_eq_of_lt (by omega) hlt
      constructor
      · intro _
        rw [hdiv0]
        congr 1
        ring
      · intro ⟨hz, hpos⟩
        rw [hmod] at hz
        omega
    · have hdiv1 : (p + L) / W = 1 := by rw [heq]; exact Int.ediv_self hW.ne'
      have hmod : (p + L) % W = 0 := by rw [heq]; exact Int.emod_self
      constructor
      · intro hcond
        rcases hcond with hne | hzero
        · exact absurd hmod hne
        · omega
      · intro _
        rw [hdiv1]
  · have hy : (position_of W L R p).y
        = R + ceilDiv (p - (W - L)) W := by
      unfold position_of
      rw [if_neg hple]
      show R + (ceilDiv (p - (W - L)) W + 1) - 1 = _
      ring
    set q := p - (W - L) with hqdef
    have hq1 : 1 ≤ q := by omega
    have hrw : p + L = q + 1 * W := by rw [hqdef]; ring
    have hdiv : (p + L) / W = q / W + 1 := by
      rw [hrw]; exact Int.add_mul_ediv_right q 1 hW.ne'
    have hmod : (p + L) % W = q % W := by
      rw [hrw, one_mul]
      have := Int.add_mul_emod_self_left q W 1
      rw [mul_one] at this
      exact this
    rw [hy, hstart (R + ceilDiv q W)]
    rcases eq_or_ne (q % W) 0 with hz | hnz
    · constructor
      · intro hcond
        rcases hcond with hne | hzero
        · rw [hmod] at hne; exact absurd hz hne
        · omega
      · intro _
        rw [hdiv, ceilDiv_of_emod_zero hW hz]
        congr 1
        ring
    · constructor
      · intro _
        rw [hdiv, ceilDiv_of_emod_ne hW hnz]
        congr 1
        ring
      · intro ⟨hzz, _⟩
        rw [hmod] at hzz
        exact absurd hzz hnz

/-- Witness for the amended C3: both regimes at W=10, L=3, R=5.  At p=5 the
origin is recovered exactly; at p=7 (p + L = W) the recovered row is R - 1. -/
theorem line_start_inverts_forward_mapping_witness :
    line_start_position 10 3 5 ((position_of 10 3 5 5).y) = ⟨3, 5⟩ ∧
    line_start_position 10 3 7 ((position_of 10 3 5 7).y) = ⟨3, 4⟩ :=
  ⟨(line_start_inverts_forward_mapping 10 3 5 5 (by decide) (by decide)
      (by decide) (by decide)).1 (by decide),
    (line_start_inverts_forward_mapping 10 3 5 7 (by decide) (by decide)
      (by decide) (by decide)).2 (by decide)⟩
